import Mathlib

/-!
# A verification model of `t-rs` (src/main.rs)

`t-rs` manages a registry directory whose direct children are either
symlinks into the OS temp root ("ephemeral" scratch directories) or real
directories ("persistent" ones).  This file gives a shallow embedding of
the filesystem state the program manipulates and of the operations from
`src/main.rs` (`cleanup`, `in_tempdir`, `new_name`, `rename`, `persist`,
`delete_all`, `create_tempdir`, the session-driver exit cleanup and the
final report of `main`), and proves the specified properties about them.

The filesystem is modelled as an association list from absolute paths
(lists of components) to nodes (real directory or symlink).  Fallible
OS calls are modelled with `Except`/`Option`; the nondeterministic
environment (results of `read_dir`, the fresh path `TempDir::new` picks)
is passed in explicitly.
-/

namespace Trs

/-- An absolute filesystem path: its components below the root. -/
abbrev Path := List String

/-- A filesystem node: a real directory, or a symbolic link to `target`. -/
inductive Node where
  | dir : Node
  | symlink (target : Path) : Node
deriving DecidableEq, Repr

/-- Filesystem state: a finite association list from paths to nodes. -/
abbrev FS := List (Path × Node)

/-- Look a path up in the filesystem (`lstat`-like: does not follow a
symlink at `p` itself). -/
def fsFind : FS → Path → Option Node
  | [], _ => none
  | (q, n) :: rest, p => if p = q then some n else fsFind rest p

/-- Remove the entry at exactly path `p` (an `unlink`). -/
def fsErase (fs : FS) (p : Path) : FS := fs.filter (fun e => e.1 ≠ p)

/-- Add an entry at path `p`. -/
def fsInsert (fs : FS) (p : Path) (n : Node) : FS := (p, n) :: fs

/-- `pfx p q`: path `p` is an ancestor of or equal to `q` (component-wise,
as Rust's `Path::starts_with`). -/
def pfx : Path → Path → Bool
  | [], _ => true
  | _, [] => false
  | a :: as, b :: bs => a = b && pfx as bs

/-- Remove the whole subtree rooted at `p` (`std::fs::remove_dir_all`'s
effect on the state, given `p` is a directory). -/
def removeTree (fs : FS) (p : Path) : FS := fs.filter (fun e => !(pfx p e.1))

/-- Resolve a path through symlinks, with fuel: what the OS does to decide
`Path::exists()`. -/
def resolveP (fs : FS) : Nat → Path → Option Path
  | 0, _ => none
  | fuel + 1, p =>
    match fsFind fs p with
    | some .dir => some p
    | some (.symlink t) => resolveP fs fuel t
    | none => none

/-- `Path::exists()`: the path resolves, following symlinks, to an existing
node. `fs.length + 1` fuel always suffices for link chains without cycles. -/
def existsP (fs : FS) (p : Path) : Bool := (resolveP fs (fs.length + 1) p).isSome

/-- `path.is_symlink()`: there is a symlink at exactly `p`. -/
def isSymlinkAt (fs : FS) (p : Path) : Bool :=
  match fsFind fs p with
  | some (.symlink _) => true
  | _ => false

/-! ## Basic lookup lemmas -/

theorem fsFind_cons (q : Path) (n : Node) (rest : FS) (p : Path) :
    fsFind ((q, n) :: rest) p = if p = q then some n else fsFind rest p := rfl

theorem fsFind_filter (fs : FS) (P : Path → Bool) (q : Path) :
    fsFind (fs.filter (fun e => P e.1)) q = if P q then fsFind fs q else none := by
  induction fs with
  | nil => cases hq : P q <;> simp [fsFind, hq]
  | cons e rest ih =>
    obtain ⟨k, v⟩ := e
    rw [List.filter_cons]
    by_cases hPk : P k
    · by_cases hq : q = k
      · subst hq; simp [fsFind, hPk]
      · simp only [hPk, if_true, fsFind, hq, if_false, ih]
    · by_cases hq : q = k
      · subst hq
        simp only [hPk, Bool.false_eq_true, if_false, ih, fsFind, if_true]
      · simp only [hPk, Bool.false_eq_true, if_false, ih, fsFind, hq]

theorem fsFind_erase (fs : FS) (p q : Path) :
    fsFind (fsErase fs p) q = if q = p then none else fsFind fs q := by
  have h := fsFind_filter fs (fun x => decide (x ≠ p)) q
  by_cases hq : q = p <;> simpa [fsErase, hq] using h

theorem fsFind_insert (fs : FS) (p : Path) (n : Node) (q : Path) :
    fsFind (fsInsert fs p n) q = if q = p then some n else fsFind fs q := rfl

theorem fsFind_removeTree (fs : FS) (p q : Path) :
    fsFind (removeTree fs p) q = if pfx p q then none else fsFind fs q := by
  have h := fsFind_filter fs (fun x => !(pfx p x)) q
  cases hpq : pfx p q <;> simpa [removeTree, hpq] using h

theorem fsFind_isSome_mem {fs : FS} {p : Path} {n : Node}
    (h : fsFind fs p = some n) : (p, n) ∈ fs := by
  induction fs with
  | nil => simp [fsFind] at h
  | cons e rest ih =>
    obtain ⟨k, v⟩ := e
    by_cases hq : p = k
    · subst hq
      simp [fsFind] at h
      simp [h]
    · simp [fsFind, hq] at h
      exact List.mem_cons_of_mem _ (ih h)

theorem fsFind_ne_nil {fs : FS} {p : Path} {n : Node}
    (h : fsFind fs p = some n) : fs.length ≥ 1 := by
  cases fs with
  | nil => simp [fsFind] at h
  | cons e rest => simp

/-! ## `exists()` through the lens of well-formed states

In every state the program produces, a symlink's target is either a real
directory (a live scratch dir) or absent (a stale link).  On such states
`existsP` is determined by at most two `fsFind` steps. -/

theorem existsP_of_dir {fs : FS} {p : Path} (h : fsFind fs p = some .dir) :
    existsP fs p = true := by
  unfold existsP
  have : fs.length + 1 = (fs.length) + 1 := rfl
  simp [resolveP, h]

theorem existsP_of_none {fs : FS} {p : Path} (h : fsFind fs p = none) :
    existsP fs p = false := by
  unfold existsP
  simp [resolveP, h]

theorem existsP_of_symlink_dir {fs : FS} {p t : Path}
    (h : fsFind fs p = some (.symlink t)) (ht : fsFind fs t = some .dir) :
    existsP fs p = true := by
  have hlen : fs.length ≥ 1 := fsFind_ne_nil h
  unfold existsP
  obtain ⟨m, hm⟩ : ∃ m, fs.length = m + 1 := ⟨fs.length - 1, by omega⟩
  rw [hm]
  simp [resolveP, h, ht]

theorem existsP_of_symlink_none {fs : FS} {p t : Path}
    (h : fsFind fs p = some (.symlink t)) (ht : fsFind fs t = none) :
    existsP fs p = false := by
  have hlen : fs.length ≥ 1 := fsFind_ne_nil h
  unfold existsP
  obtain ⟨m, hm⟩ : ∃ m, fs.length = m + 1 := ⟨fs.length - 1, by omega⟩
  rw [hm]
  simp [resolveP, h]
  obtain ⟨m', hm'⟩ : ∃ m', m = m' + 1 ∨ m = 0 := ⟨m - 1, by omega⟩
  rcases hm' with hm' | hm' <;> subst hm' <;> simp [resolveP, ht]

theorem existsP_isSome {fs : FS} {p : Path} (h : existsP fs p = true) :
    ∃ n, fsFind fs p = some n := by
  unfold existsP at h
  cases hf : fsFind fs p with
  | none => simp [resolveP, hf] at h
  | some n => exact ⟨n, rfl⟩

/-! ## Path order lemmas -/

theorem pfx_iff {p q : Path} : pfx p q = true ↔ ∃ s, q = p ++ s := by
  induction p generalizing q with
  | nil => simp [pfx]
  | cons a as ih =>
    cases q with
    | nil => simp [pfx]
    | cons b bs =>
      simp only [pfx, Bool.and_eq_true, decide_eq_true_eq, ih]
      constructor
      · rintro ⟨rfl, s, rfl⟩; exact ⟨s, rfl⟩
      · rintro ⟨s, h⟩
        rw [List.cons_append] at h
        cases h
        exact ⟨rfl, s, rfl⟩

theorem pfx_self_append (p s : Path) : pfx p (p ++ s) = true :=
  pfx_iff.mpr ⟨s, rfl⟩

theorem pfx_self (p : Path) : pfx p p = true := by
  simpa using pfx_self_append p []

theorem pfx_comparable {a b c : Path} (ha : pfx a c = true) (hb : pfx b c = true) :
    pfx a b = true ∨ pfx b a = true := by
  obtain ⟨s, rfl⟩ := pfx_iff.mp ha
  obtain ⟨t, hbt⟩ := pfx_iff.mp hb
  rcases List.append_eq_append_iff.mp hbt with ⟨u, hu, -⟩ | ⟨u, hu, -⟩
  · exact Or.inl (pfx_iff.mpr ⟨u, hu⟩)
  · exact Or.inr (pfx_iff.mpr ⟨u, hu⟩)

theorem pfx_sibling {r : Path} {a b : String}
    (h : pfx (r ++ [a]) (r ++ [b]) = true) : a = b := by
  obtain ⟨s, hs⟩ := pfx_iff.mp h
  rw [List.append_assoc] at hs
  have := List.append_cancel_left hs
  simpa using ((List.cons_eq_cons.mp this).1).symm

theorem pfx_sibling_false {r : Path} {a b : String} (h : a ≠ b) :
    pfx (r ++ [a]) (r ++ [b]) = false := by
  cases hp : pfx (r ++ [a]) (r ++ [b])
  · rfl
  · exact absurd (pfx_sibling hp) h

/-! ## Direct children of the registry -/

/-- If `p` is a direct child of `reg` (i.e. `p = reg ++ [n]`), its name `n`. -/
def childName? (reg : Path) (p : Path) : Option String :=
  if pfx reg p && p.length == reg.length + 1 then (p.drop reg.length).head? else none

theorem childName?_eq_some {reg p : Path} {n : String} :
    childName? reg p = some n ↔ p = reg ++ [n] := by
  constructor
  · intro h
    unfold childName? at h
    by_cases hc : pfx reg p && p.length == reg.length + 1
    · rw [if_pos hc] at h
      obtain ⟨hpre, hlen⟩ := (Bool.and_eq_true _ _).mp hc
      obtain ⟨s, rfl⟩ := pfx_iff.mp hpre
      have hslen : s.length = 1 := by
        simp only [beq_iff_eq] at hlen
        simpa using hlen
      rw [List.drop_left] at h
      obtain ⟨x, hx⟩ := List.length_eq_one.mp hslen
      subst hx
      simp at h
      subst h
      rfl
    · rw [if_neg hc] at h; cases h
  · rintro rfl
    unfold childName?
    rw [if_pos]
    · rw [List.drop_left]; rfl
    · simp [pfx_self_append]

/-- The names of the registry's direct children present in `fs` (what
`read_dir(tempdirs)` yields, in state order). -/
def childNames (fs : FS) (reg : Path) : List String :=
  fs.filterMap (fun e => childName? reg e.1)

theorem childNames_mem {fs : FS} {reg p : Path} {n : Node} {s : String}
    (hmem : (p, n) ∈ fs) (hname : childName? reg p = some s) :
    s ∈ childNames fs reg := by
  unfold childNames
  exact List.mem_filterMap.mpr ⟨(p, n), hmem, hname⟩

/-! ## The operations of `src/main.rs` -/

/-- `TEMPDIR_PREFIX` from main.rs: the marker with which every backing OS
temp directory's name begins. -/
def TEMPDIR_TAG : String := "T-RS-TEMPDIR"

/-- `pfx` at the character level (`str::starts_with`, first argument the
shorter string). -/
def chPfx : List Char → List Char → Bool
  | [], _ => true
  | _, [] => false
  | a :: as, b :: bs => a = b && chPfx as bs

/-- `s.starts_with(pre)` on strings. -/
def strStarts (s pre : String) : Bool := chPfx pre.data s.data

/-- The scan `for part in path { if part.starts_with(TEMPDIR_PREFIX) ... }`. -/
def hasTagComponent (p : Path) : Bool := p.any (fun part => strStarts part TEMPDIR_TAG)

/-- The loop of `find_parent`, iterative over ancestors: each step drops the
last component, so `p.length` steps always suffice. -/
def find_parentGo (tmp tempdirs : Path) : Nat → Path → Option Path
  | 0, _ => none
  | _ + 1, [] => none
  | fuel + 1, a :: as =>
    if (a :: as).dropLast = tmp ∨ (a :: as).dropLast = tempdirs then some (a :: as)
    else find_parentGo tmp tempdirs fuel (a :: as).dropLast

/-- `find_parent` from `in_tempdir` (main.rs lines 477-487): walk upward
until the parent is the OS temp root or the registry, and return the child
of that parent; `none` once the root is reached. -/
def find_parent (tmp tempdirs : Path) (p : Path) : Option Path :=
  find_parentGo tmp tempdirs p.length p

/-- One step of `Path::canonicalize`'s component walk: `acc` is the resolved
part so far, the third argument what remains; a symlink restarts resolution
at its target. Fuel-limited (a cycle of links makes the OS call fail too). -/
def canonGo (fs : FS) : Nat → Path → Path → Option Path
  | 0, _, _ => none
  | _ + 1, acc, [] => some acc
  | fuel + 1, acc, c :: rest =>
    match fsFind fs (acc ++ [c]) with
    | some .dir => canonGo fs fuel (acc ++ [c]) rest
    | some (.symlink t) => canonGo fs fuel [] (t ++ rest)
    | none => none

/-- `Path::canonicalize()`: resolve every component, following symlinks. -/
def canonicalize (fs : FS) (p : Path) : Option Path :=
  canonGo fs ((fs.length + 1) * (p.length + 1)) [] p

/-- The trailing loop of `in_tempdir` (main.rs lines 504-510): scan the raw
process working directory for a marked component. -/
def in_tempdir_cwd (tmp tempdirs : Path) (cwd : Path) : Except Unit (Option Path) :=
  if hasTagComponent cwd then .ok (find_parent tmp tempdirs cwd) else .ok none

/-- `in_tempdir` from main.rs (lines 474-511). `tmp` is `std::env::temp_dir()`;
a failing `canonicalize` of the shell-reported `pwd` is the fatal error path. -/
def in_tempdir (fs : FS) (tmp tempdirs : Path) (cwd : Path) (pwd : Option Path) :
    Except Unit (Option Path) :=
  match pwd with
  | none => in_tempdir_cwd tmp tempdirs cwd
  | some p =>
    match canonicalize fs p with
    | none => .error ()
    | some cp =>
      if hasTagComponent cp then .ok (find_parent tmp tempdirs p)
      else if pfx tempdirs p then
        match (p.drop tempdirs.length).head? with
        | some first => .ok (some (tempdirs ++ [first]))
        | none => in_tempdir_cwd tmp tempdirs cwd
      else in_tempdir_cwd tmp tempdirs cwd

/-- Move the subtree at `src` to `dst`: remap every key under `src`. -/
def movePath (src dst p : Path) : Path :=
  if pfx src p then dst ++ p.drop src.length else p

/-- The state change shared by `std::fs::rename` and `fs_extra::dir::move_dir`
(with `copy_inside`) when the destination does not exist yet. -/
def fsRemap (fs : FS) (src dst : Path) : FS :=
  fs.map (fun e => (movePath src dst e.1, e.2))

/-- `std::fs::rename(old, new)`: fails when `old` is absent. -/
def fsRename (fs : FS) (old nw : Path) : Option FS :=
  match fsFind fs old with
  | some _ => some (fsRemap fs old nw)
  | none => none

/-- `fs_extra::dir::move_dir(src, dst, copy_inside)`: requires a real
directory at `src`. -/
def moveDir (fs : FS) (src dst : Path) : Option FS :=
  match fsFind fs src with
  | some .dir => some (fsRemap fs src dst)
  | _ => none

/-- `rename` from main.rs (lines 419-437). -/
def rename (fs : FS) (old nw : Path) : Except Unit (Bool × FS) :=
  if existsP fs nw then .ok (false, fs)
  else if !(isSymlinkAt fs old) then
    match fsRename fs old nw with
    | some fs' => .ok (true, fs')
    | none => .error ()
  else
    match fsFind fs old with
    | some (.symlink t) => .ok (true, fsInsert (fsErase fs old) nw (.symlink t))
    | _ => .error ()

/-- `persist` from main.rs (lines 152-173): read the link, unlink it, then
move the backing directory to the link's former location. -/
def persist (fs : FS) (p : Path) : Except Unit FS :=
  if !(isSymlinkAt fs p) then .ok fs
  else
    match fsFind fs p with
    | some (.symlink t) =>
      match moveDir (fsErase fs p) t p with
      | some fs' => .ok fs'
      | none => .error ()
    | _ => .error ()

/-- `delete_all` from main.rs (lines 535-546): remove every direct child of
the registry that is a symlink; returns the registry path to report. -/
def delete_all (fs : FS) (tempdirs : Path) : FS × Path :=
  ((childNames fs tempdirs).foldl
    (fun acc n =>
      if isSymlinkAt acc (tempdirs ++ [n]) then fsErase acc (tempdirs ++ [n]) else acc) fs,
   tempdirs)

/-- `create_tempdir` from main.rs (lines 548-568). `freshTmp` is the fresh
unique path `TempDir::new(TEMPDIR_PREFIX)` picked under the OS temp root;
`mkLink` is the `symlink: bool` argument. Creating the symlink fails if
something (e.g. a dangling link) occupies the registry path. -/
def create_tempdir (fs : FS) (tempdirs : Path) (name : String) (cwd : Path)
    (pwd : Option Path) (freshTmp : Path) (mkLink : Bool) : Except Unit (Path × FS) :=
  let symlink_path := tempdirs ++ [name]
  if existsP fs symlink_path then .ok (pwd.getD cwd, fs)
  else
    let fs1 := fsInsert fs freshTmp .dir
    if mkLink then
      match fsFind fs1 symlink_path with
      | some _ => .error ()
      | none => .ok (symlink_path, fsInsert fs1 symlink_path (.symlink freshTmp))
    else .ok (freshTmp, fs1)

/-- The Session Driver's post-exit cleanup (`shell`, main.rs lines 407-414):
if the entry is still a symlink, unlink it and recursively delete the
backing temp directory; otherwise do nothing. -/
def shellExitCleanup (fs : FS) (res : Path) : Except Unit FS :=
  if isSymlinkAt fs res then
    match fsFind fs res with
    | some (.symlink t) =>
      let fs1 := fsErase fs res
      match fsFind fs1 t with
      | some .dir => .ok (removeTree fs1 t)
      | _ => .error ()
    | _ => .error ()
  else .ok fs

/-! ### The Stale-Link Reaper (`cleanup`) -/

/-- One result of iterating `read_dir`: a child's name, or a failed
direntry read. -/
abbrev DirEntryRes := Except Unit String

/-- The loop of `cleanup` (main.rs lines 91-98): a failed direntry read is
propagated with `?`; a symlink child whose target does not exist is
unlinked. -/
def cleanupGo (tempdirs : Path) : List DirEntryRes → FS → Except Unit FS
  | [], fs => .ok fs
  | .error _ :: _, _ => .error ()
  | .ok n :: rest, fs =>
    match fsFind fs (tempdirs ++ [n]) with
    | some (.symlink t) =>
      if existsP fs t then cleanupGo tempdirs rest fs
      else cleanupGo tempdirs rest (fsErase fs (tempdirs ++ [n]))
    | _ => cleanupGo tempdirs rest fs

/-- `cleanup` from main.rs (lines 90-101): `rd` is what `read_dir(tempdirs)`
returned (`.error` when the registry itself cannot be listed — fatal). -/
def cleanup (tempdirs : Path) (rd : Except Unit (List DirEntryRes)) (fs : FS) :
    Except Unit FS :=
  match rd with
  | .error _ => .error ()
  | .ok entries => cleanupGo tempdirs entries fs

/-! ### Decimal names: `format!("unnamed_{}", k)` and `parse::<usize>()` -/

/-- The character of the decimal digit `d < 10`. -/
def digitChar10 (d : Nat) : Char := Char.ofNat (48 + d)

/-- The numeric value of a decimal digit character. -/
def digitVal (c : Char) : Nat := c.toNat - 48

/-- The decimal digits of `n`, most significant first; structural fuel,
`n + 1` always suffices. -/
def decimalGo : Nat → Nat → List Char
  | 0, _ => []
  | fuel + 1, n =>
    if n < 10 then [digitChar10 n]
    else decimalGo fuel (n / 10) ++ [digitChar10 (n % 10)]

/-- The decimal rendering of `n`, as `format!("{}", n)` produces it. -/
def decimalDigits (n : Nat) : List Char := decimalGo (n + 1) n

/-- The name `format!("unnamed_{}", k)`. -/
def unnamedOf (k : Nat) : String :=
  ⟨'u' :: 'n' :: 'n' :: 'a' :: 'm' :: 'e' :: 'd' :: '_' :: decimalDigits k⟩

/-- `str::strip_prefix("unnamed_")` on a child's name. -/
def stripUnnamed (s : String) : Option String :=
  match s.data with
  | 'u' :: 'n' :: 'n' :: 'a' :: 'm' :: 'e' :: 'd' :: '_' :: rest => some ⟨rest⟩
  | _ => none

/-- The digits part of `str::parse::<usize>()`: one or more decimal digits
(the unbounded `Nat` stands in for `usize`; overflow is not modelled). -/
def parseDigits (cs : List Char) : Option Nat :=
  if cs ≠ [] ∧ cs.all (fun c => c.isDigit) then
    some (cs.foldl (fun a c => a * 10 + digitVal c) 0)
  else none

/-- `str::parse::<usize>()`: an optional `+` sign, then decimal digits. -/
def parseUsize (s : String) : Option Nat :=
  match s.data with
  | '+' :: rest => parseDigits rest
  | cs => parseDigits cs

/-- The fold of `new_name` (main.rs lines 514-522): the largest `k` parsed
from a child named `unnamed_<k>`, `0` when there is none. -/
def maxUnnamed (names : List String) : Nat :=
  names.foldl
    (fun acc s =>
      match stripUnnamed s with
      | some rest =>
        match parseUsize rest with
        | some k => max acc k
        | none => acc
      | none => acc) 0

/-- An upper bound from one filesystem key on the counters `k` for which
`registry/unnamed_<k>` can exist. -/
def keyContrib (reg : Path) (p : Path) : Nat :=
  match childName? reg p with
  | some s =>
    match stripUnnamed s with
    | some rest =>
      match parseUsize rest with
      | some k => k + 1
      | none => 0
    | none => 0
  | none => 0

/-- A bound above every counter `k` for which `registry/unnamed_<k>`
exists: the state is finite, so such a bound exists and the collision loop
of `new_name` terminates. -/
def keyBound (fs : FS) (reg : Path) : Nat :=
  fs.foldl (fun acc e => max acc (keyContrib reg e.1)) 0

/-! ### Decimal round-trip -/

theorem digitVal_digitChar10 {d : Nat} (h : d < 10) : digitVal (digitChar10 d) = d := by
  interval_cases d <;> decide

theorem isDigit_digitChar10 {d : Nat} (h : d < 10) : (digitChar10 d).isDigit = true := by
  interval_cases d <;> decide

theorem decimalGo_ne_nil {fuel n : Nat} (h : n < fuel) : decimalGo fuel n ≠ [] := by
  cases fuel with
  | zero => omega
  | succ f =>
    unfold decimalGo
    by_cases h10 : n < 10 <;> simp [h10]

theorem decimalGo_all_digit {fuel n : Nat} (h : n < fuel) :
    ∀ c ∈ decimalGo fuel n, c.isDigit = true := by
  induction fuel generalizing n with
  | zero => omega
  | succ f ih =>
    unfold decimalGo
    by_cases h10 : n < 10
    · simp only [h10, if_true, List.mem_singleton]
      rintro c rfl
      exact isDigit_digitChar10 h10
    · simp only [h10, if_false, List.mem_append, List.mem_singleton]
      rintro c (hc | rfl)
      · exact ih (by omega) c hc
      · exact isDigit_digitChar10 (Nat.mod_lt _ (by omega))

theorem decimalGo_foldl {fuel n : Nat} (h : n < fuel) (a : Nat) :
    (decimalGo fuel n).foldl (fun a c => a * 10 + digitVal c) a =
      a * 10 ^ (decimalGo fuel n).length + n := by
  induction fuel generalizing n a with
  | zero => omega
  | succ f ih =>
    unfold decimalGo
    by_cases h10 : n < 10
    · simp [h10, List.foldl, digitVal_digitChar10 h10]
    · have hrec : n / 10 < f := by
        have h1 : n / 10 < n := Nat.div_lt_self (by omega) (by omega)
        omega
      simp only [h10, if_false, List.foldl_append, List.foldl_cons, List.foldl_nil,
        List.length_append, List.length_singleton]
      rw [ih hrec a]
      rw [digitVal_digitChar10 (Nat.mod_lt _ (by omega))]
      rw [pow_succ]
      have := Nat.div_add_mod n 10
      ring_nf
      omega

theorem parseDigits_decimalDigits (n : Nat) : parseDigits (decimalDigits n) = some n := by
  unfold parseDigits decimalDigits
  rw [if_pos]
  · have := @decimalGo_foldl (n + 1) n (by omega) 0
    simp at this
    simp [this]
  · refine ⟨decimalGo_ne_nil (by omega), ?_⟩
    rw [List.all_eq_true]
    intro c hc
    exact decimalGo_all_digit (by omega) c hc

theorem decimalDigits_head_ne_plus {n : Nat} {c : Char} {rest : List Char}
    (h : decimalDigits n = c :: rest) : c ≠ '+' := by
  intro hc
  subst hc
  have hd : '+' ∈ decimalDigits n := by rw [h]; exact List.mem_cons_self _ _
  have := @decimalGo_all_digit (n + 1) n (by omega) _ hd
  simp [Char.isDigit] at this

theorem parseUsize_unnamed (n : Nat) : parseUsize ⟨decimalDigits n⟩ = some n := by
  show (match decimalDigits n with
    | '+' :: rest => parseDigits rest
    | cs => parseDigits cs) = some n
  cases hcs : decimalDigits n with
  | nil => exact absurd hcs (decimalGo_ne_nil (by omega))
  | cons c rest =>
    have hne : c ≠ '+' := decimalDigits_head_ne_plus hcs
    have : (match c :: rest with
        | '+' :: rest => parseDigits rest
        | cs => parseDigits cs) = parseDigits (c :: rest) := by
      split
      · rename_i heq
        cases heq
        exact absurd rfl hne
      · rfl
    rw [this, ← hcs, parseDigits_decimalDigits]

theorem stripUnnamed_unnamedOf (k : Nat) :
    stripUnnamed (unnamedOf k) = some ⟨decimalDigits k⟩ := rfl

/-! ### The collision loop of `new_name` terminates -/

theorem le_foldl_max {α : Type} (l : List α) (f : α → Nat) (init : Nat) :
    init ≤ l.foldl (fun a y => max a (f y)) init := by
  induction l generalizing init with
  | nil => simp
  | cons x xs ih =>
    simp only [List.foldl_cons]
    exact le_trans (Nat.le_max_left _ _) (ih _)

theorem mem_le_foldl_max {α : Type} {l : List α} {x : α} (hx : x ∈ l)
    (f : α → Nat) (init : Nat) :
    f x ≤ l.foldl (fun a y => max a (f y)) init := by
  induction l generalizing init with
  | nil => cases hx
  | cons y ys ih =>
    simp only [List.foldl_cons]
    rcases List.mem_cons.mp hx with rfl | hmem
    · exact le_trans (Nat.le_max_right _ _) (le_foldl_max _ _ _)
    · exact ih hmem _

theorem existsP_unnamed_lt_keyBound {fs : FS} {reg : Path} {k : Nat}
    (h : existsP fs (reg ++ [unnamedOf k]) = true) : k < keyBound fs reg := by
  obtain ⟨n, hn⟩ := existsP_isSome h
  have hmem := fsFind_isSome_mem hn
  have hle := mem_le_foldl_max hmem (fun e => keyContrib reg e.1) 0
  have hcontrib : keyContrib reg (reg ++ [unnamedOf k]) = k + 1 := by
    unfold keyContrib
    rw [show childName? reg (reg ++ [unnamedOf k]) = some (unnamedOf k) from
      childName?_eq_some.mpr rfl]
    simp [stripUnnamed_unnamedOf, parseUsize_unnamed]
  unfold keyBound
  calc k < k + 1 := by omega
    _ = keyContrib reg (reg ++ [unnamedOf k]) := hcontrib.symm
    _ ≤ _ := hle

/-- The collision loop of `new_name` (main.rs lines 524-532): increment the
counter until `registry/unnamed_<k>` does not exist. Terminates because the
finite state bounds the existing counters by `keyBound`. -/
def probeFrom (fs : FS) (reg : Path) (k : Nat) : Nat :=
  if h : existsP fs (reg ++ [unnamedOf k]) = true then probeFrom fs reg (k + 1)
  else k
termination_by keyBound fs reg - k
decreasing_by
  have := existsP_unnamed_lt_keyBound h
  omega

/-- `new_name` from main.rs (lines 513-533). -/
def new_name (fs : FS) (tempdirs : Path) : String :=
  unnamedOf (probeFrom fs tempdirs (maxUnnamed (childNames fs tempdirs) + 1))

/-! ### The final report of `main` -/

/-- What `to_string_lossy()` shows for an absolute path. -/
def renderPath (p : Path) : String := "/" ++ String.intercalate "/" p

/-- The observable outcome of the end of `main`: the process exit status
and the bytes written to the standard output stream. -/
structure MainReport where
  exitCode : Nat
  stdoutData : String
deriving DecidableEq, Repr

/-- The final step of `main` (lines 378-384): `println!("\n\n{}", path)` of
the operation's resulting path — or of the caller's original location when
the operation resolved to `None` — then `exit(0)`. -/
def report (go_to : Option Path) (orig : Path) : MainReport :=
  { exitCode := 0, stdoutData := "\n" ++ "\n" ++ renderPath (go_to.getD orig) ++ "\n" }

/-- Split a byte stream into lines at `'\n'`; an unterminated final piece
also counts as a line, a terminating final newline adds none. -/
def linesGo : List Char → List Char → List (List Char)
  | acc, [] => if acc = [] then [] else [acc]
  | acc, c :: rest =>
    if c = '\n' then acc :: linesGo [] rest else linesGo (acc ++ [c]) rest

/-- The lines written to a stream. -/
def linesOf (s : String) : List String := (linesGo [] s.data).map (fun cs => ⟨cs⟩)

theorem linesGo_append_newline {cs : List Char} (h : ∀ c ∈ cs, c ≠ '\n')
    (acc tail : List Char) :
    linesGo acc (cs ++ '\n' :: tail) = (acc ++ cs) :: linesGo [] tail := by
  induction cs generalizing acc with
  | nil => simp [linesGo]
  | cons c rest ih =>
    have hc : c ≠ '\n' := h c (List.mem_cons_self _ _)
    rw [List.cons_append]
    show linesGo acc (c :: (rest ++ '\n' :: tail)) = _
    rw [linesGo, if_neg hc]
    rw [ih (fun x hx => h x (List.mem_cons_of_mem _ hx))]
    simp

/-! ### `fsRemap` characterization -/

theorem movePath_under (src dst u : Path) : movePath src dst (src ++ u) = dst ++ u := by
  unfold movePath
  rw [if_pos (pfx_self_append _ _), List.drop_left]

theorem movePath_not_under {src dst p : Path} (h : pfx src p = false) :
    movePath src dst p = p := by
  unfold movePath
  rw [if_neg (by simp [h])]

theorem fsFind_remap_dst {fs : FS} {src dst : Path}
    (hdst : ∀ s, fsFind fs (dst ++ s) = none) (s : Path) :
    fsFind (fsRemap fs src dst) (dst ++ s) = fsFind fs (src ++ s) := by
  induction fs generalizing s with
  | nil => rfl
  | cons e rest ih =>
    obtain ⟨k, v⟩ := e
    have hkne : ∀ u, dst ++ u ≠ k := by
      intro u hku
      have h := hdst u
      rw [fsFind_cons, if_pos hku] at h
      cases h
    have hrest : ∀ u, fsFind rest (dst ++ u) = none := by
      intro u
      have h := hdst u
      rwa [fsFind_cons, if_neg (hkne u)] at h
    simp only [fsRemap, List.map_cons] at ih ⊢
    by_cases hks : pfx src k = true
    · obtain ⟨u, rfl⟩ := pfx_iff.mp hks
      rw [movePath_under, fsFind_cons, fsFind_cons]
      by_cases hsu : s = u
      · subst hsu; rw [if_pos rfl, if_pos rfl]
      · rw [if_neg (by simpa using hsu), if_neg (by simpa using hsu)]
        exact ih hrest s
    · rw [movePath_not_under (by simpa using hks), fsFind_cons, fsFind_cons]
      rw [if_neg (hkne s)]
      rw [if_neg (by
        intro hq
        rw [← hq] at hks
        exact hks (pfx_self_append src s))]
      exact ih hrest s

theorem fsFind_remap_src {fs : FS} {src dst : Path}
    (h1 : pfx src dst = false) (h2 : pfx dst src = false) (s : Path) :
    fsFind (fsRemap fs src dst) (src ++ s) = none := by
  induction fs with
  | nil => rfl
  | cons e rest ih =>
    obtain ⟨k, v⟩ := e
    simp only [fsRemap, List.map_cons] at ih ⊢
    rw [fsFind_cons]
    by_cases hks : pfx src k = true
    · obtain ⟨u, rfl⟩ := pfx_iff.mp hks
      rw [movePath_under]
      rw [if_neg (by
        intro hq
        have hsrc : pfx src (dst ++ u) = true := by rw [← hq]; exact pfx_self_append src s
        have hdst2 : pfx dst (dst ++ u) = true := pfx_self_append dst u
        rcases pfx_comparable hsrc hdst2 with hc | hc
        · rw [hc] at h1; cases h1
        · rw [hc] at h2; cases h2)]
      exact ih
    · rw [movePath_not_under (by simpa using hks)]
      rw [if_neg (by
        intro hq
        rw [← hq] at hks
        exact hks (pfx_self_append src s))]
      exact ih

theorem fsFind_remap_frame {fs : FS} {src dst q : Path}
    (hs : pfx src q = false) (hd : pfx dst q = false) :
    fsFind (fsRemap fs src dst) q = fsFind fs q := by
  induction fs with
  | nil => rfl
  | cons e rest ih =>
    obtain ⟨k, v⟩ := e
    simp only [fsRemap, List.map_cons] at ih ⊢
    rw [fsFind_cons, fsFind_cons]
    by_cases hks : pfx src k = true
    · obtain ⟨u, rfl⟩ := pfx_iff.mp hks
      rw [movePath_under]
      rw [if_neg (by
        intro hq
        rw [hq, pfx_self_append] at hd
        cases hd)]
      rw [if_neg (by
        intro hq
        rw [hq, pfx_self_append] at hs
        cases hs)]
      exact ih
    · rw [movePath_not_under (by simpa using hks)]
      by_cases hq : q = k
      · subst hq; rw [if_pos rfl, if_pos rfl]
      · rw [if_neg hq, if_neg hq]
        exact ih

theorem probeFrom_spec (fs : FS) (reg : Path) (s : Nat) :
    s ≤ probeFrom fs reg s
    ∧ existsP fs (reg ++ [unnamedOf (probeFrom fs reg s)]) = false
    ∧ ∀ j, s ≤ j → j < probeFrom fs reg s → existsP fs (reg ++ [unnamedOf j]) = true := by
  induction s using probeFrom.induct fs reg with
  | case1 k h ih =>
    rw [probeFrom, dif_pos h]
    obtain ⟨ih1, ih2, ih3⟩ := ih
    refine ⟨by omega, ih2, ?_⟩
    intro j hj1 hj2
    rcases Nat.eq_or_lt_of_le hj1 with rfl | hlt
    · exact h
    · exact ih3 j (by omega) hj2
  | case2 k h =>
    rw [probeFrom, dif_neg h]
    exact ⟨le_refl _, by simpa using h, fun j hj1 hj2 => by omega⟩

/-! ### Further helper lemmas -/

theorem pfx_trans {a b c : Path} (h1 : pfx a b = true) (h2 : pfx b c = true) :
    pfx a c = true := by
  obtain ⟨s, rfl⟩ := pfx_iff.mp h1
  obtain ⟨t, rfl⟩ := pfx_iff.mp h2
  exact pfx_iff.mpr ⟨s ++ t, by rw [List.append_assoc]⟩

theorem pfx_dropLast (p : Path) : pfx p.dropLast p = true := by
  cases hp : p with
  | nil => simp [pfx]
  | cons a as =>
    rw [← hp]
    have hne : p ≠ [] := by simp [hp]
    exact pfx_iff.mpr ⟨[p.getLast hne], (List.dropLast_append_getLast hne).symm⟩

theorem find_parentGo_spec (tmp tempdirs : Path) :
    ∀ fuel p r, find_parentGo tmp tempdirs fuel p = some r →
      (r.dropLast = tmp ∨ r.dropLast = tempdirs) ∧ pfx r p = true := by
  intro fuel
  induction fuel with
  | zero => intro p r h; simp [find_parentGo] at h
  | succ f ih =>
    intro p r h
    cases p with
    | nil => simp [find_parentGo] at h
    | cons a as =>
      rw [find_parentGo] at h
      by_cases hcond : (a :: as).dropLast = tmp ∨ (a :: as).dropLast = tempdirs
      · rw [if_pos hcond] at h
        cases h
        exact ⟨hcond, pfx_self _⟩
      · rw [if_neg hcond] at h
        obtain ⟨h1, h2⟩ := ih _ r h
        exact ⟨h1, pfx_trans h2 (pfx_dropLast _)⟩

theorem find_parent_spec (tmp tempdirs : Path) (p : Path) {r : Path}
    (h : find_parent tmp tempdirs p = some r) :
    (r.dropLast = tmp ∨ r.dropLast = tempdirs) ∧ pfx r p = true :=
  find_parentGo_spec tmp tempdirs _ p r h

theorem isSymlinkAt_erase (fs : FS) (p q : Path) :
    isSymlinkAt (fsErase fs p) q = if q = p then false else isSymlinkAt fs q := by
  unfold isSymlinkAt
  rw [fsFind_erase]
  by_cases h : q = p <;> simp [h]

theorem linesGo_newline (acc rest : List Char) :
    linesGo acc ('\n' :: rest) = acc :: linesGo [] rest := by
  rw [linesGo, if_pos rfl]

/-- A path holding what the Reaper removes: a symlink whose target does
not exist. -/
def staleChild (fs : FS) (q : Path) : Bool :=
  match fsFind fs q with
  | some (.symlink t) => !(existsP fs t)
  | _ => false

/-- The state invariant the program maintains: every symlink's target is a
real directory (a live scratch dir) or absent (a stale link). -/
def wfTargets (fs : FS) : Bool :=
  fs.all (fun e =>
    match e.2 with
    | .symlink t =>
      match fsFind fs t with
      | some .dir => true
      | none => true
      | _ => false
    | .dir => true)

theorem wfTargets_spec {fs : FS} (h : wfTargets fs = true) {p t : Path}
    (hp : fsFind fs p = some (.symlink t)) :
    fsFind fs t = some .dir ∨ fsFind fs t = none := by
  have hmem := fsFind_isSome_mem hp
  have hall := List.all_eq_true.mp h _ hmem
  revert hall
  cases hft : fsFind fs t with
  | none => intro _; exact Or.inr rfl
  | some n =>
    cases n with
    | dir => intro _; exact Or.inl rfl
    | symlink u => intro hall; simp [hft] at hall

theorem maxUnnamed_ge {names : List String} {m : Nat}
    (h : unnamedOf m ∈ names) : m ≤ maxUnnamed names := by
  have heq : maxUnnamed names = names.foldl
      (fun acc s => max acc (match stripUnnamed s with
        | some rest =>
          match parseUsize rest with
          | some k => k
          | none => 0
        | none => 0)) 0 := by
    unfold maxUnnamed
    congr 1
    funext acc s
    cases hstrip : stripUnnamed s with
    | none => simp
    | some rest =>
      cases hparse : parseUsize rest with
      | none => simp [hparse]
      | some k => simp [hparse]
  rw [heq]
  have := mem_le_foldl_max h
    (fun s => (match stripUnnamed s with
      | some rest =>
        match parseUsize rest with
        | some k => k
        | none => 0
      | none => 0)) 0
  simpa [stripUnnamed_unnamedOf, parseUsize_unnamed] using this

/-! ## Sample filesystem states used to instantiate the theorems -/

/-- The registry location `/home/u/tempdirs`. -/
def regS : Path := ["home", "u", "tempdirs"]

/-- A sample state: registry with the ephemeral entry `alpha` (backed by
`/tmp/T-RS-TEMPDIRaaa`) and the persistent entry `beta`. -/
def fsS : FS :=
  [(["home"], .dir), (["home", "u"], .dir), (["home", "u", "tempdirs"], .dir),
   (["tmp"], .dir),
   (["home", "u", "tempdirs", "alpha"], .symlink ["tmp", "T-RS-TEMPDIRaaa"]),
   (["tmp", "T-RS-TEMPDIRaaa"], .dir),
   (["home", "u", "tempdirs", "beta"], .dir)]

/-- A sample state for the Name Allocator: registry `/r` with children
`unnamed_1` (persistent) and `unnamed_3` (ephemeral). -/
def fsC7 : FS :=
  [(["r"], .dir), (["tmp"], .dir),
   (["r", "unnamed_1"], .dir),
   (["r", "unnamed_3"], .symlink ["tmp", "T-RS-TEMPDIRu3"]),
   (["tmp", "T-RS-TEMPDIRu3"], .dir)]

/-- A sample state for the Reaper: registry `/r` with the live ephemeral
child `a`, the stale symlink `b` (target gone) and the persistent child `c`. -/
def fsC2 : FS :=
  [(["r"], .dir), (["tmp"], .dir),
   (["r", "a"], .symlink ["tmp", "T-RS-TEMPDIRta"]),
   (["tmp", "T-RS-TEMPDIRta"], .dir),
   (["r", "b"], .symlink ["tmp", "T-RS-TEMPDIRtb"]),
   (["r", "c"], .dir)]

/-! ## The claims -/

/-- C4: when `registry/name` already exists, `create_tempdir` reports a
conflict and returns the caller's original location (the shell-reported
directory when available, else the process working directory) with the
filesystem unchanged: no new temp directory, no new symlink, no failure. -/
theorem create_tempdir_conflict (fs : FS) (tempdirs : Path) (name : String)
    (cwd : Path) (pwd : Option Path) (freshTmp : Path) (mkLink : Bool)
    (h : existsP fs (tempdirs ++ [name]) = true) :
    create_tempdir fs tempdirs name cwd pwd freshTmp mkLink = .ok (pwd.getD cwd, fs) := by
  unfold create_tempdir
  simp [h]

/-- C4 witness: creating `alpha` while `registry/alpha` exists returns the
shell-reported location and the unchanged state. -/
theorem create_tempdir_conflict_witness :
    create_tempdir fsS regS "alpha" ["root"] (some ["home", "u"])
        ["tmp", "T-RS-TEMPDIRnew"] true
      = .ok (["home", "u"], fsS) :=
  create_tempdir_conflict fsS regS "alpha" ["root"] (some ["home", "u"])
    ["tmp", "T-RS-TEMPDIRnew"] true (by decide)

/-- C9 (amended): on the common reporting path `main` exits 0 and writes the
final resolved directory path as the last line of standard output; that line
is preceded by two empty lines, so stdout carries three lines, not one. -/
theorem report_last_line (go_to : Option Path) (orig : Path)
    (hnl : ∀ c ∈ (renderPath (go_to.getD orig)).data, c ≠ '\n') :
    (report go_to orig).exitCode = 0
    ∧ linesOf (report go_to orig).stdoutData = ["", "", renderPath (go_to.getD orig)]
    ∧ (linesOf (report go_to orig).stdoutData).getLast?
        = some (renderPath (go_to.getD orig)) := by
  have hlines : linesOf (report go_to orig).stdoutData
      = ["", "", renderPath (go_to.getD orig)] := by
    unfold linesOf
    have hdata : (report go_to orig).stdoutData.data
        = '\n' :: '\n' :: ((renderPath (go_to.getD orig)).data ++ '\n' :: []) := rfl
    rw [hdata, linesGo_newline, linesGo_newline, linesGo_append_newline hnl]
    rfl
  exact ⟨rfl, hlines, by rw [hlines]; rfl⟩

/-- C9 witness: the report for result `/tmp/x` from `/home`. -/
theorem report_last_line_witness :
    (report (some ["tmp", "x"]) ["home"]).exitCode = 0
    ∧ linesOf (report (some ["tmp", "x"]) ["home"]).stdoutData
        = ["", "", renderPath ((some ["tmp", "x"]).getD ["home"])]
    ∧ (linesOf (report (some ["tmp", "x"]) ["home"]).stdoutData).getLast?
        = some (renderPath ((some ["tmp", "x"]).getD ["home"])) :=
  report_last_line (some ["tmp", "x"]) ["home"] (by decide)

/-- C9 counterexample: the claim says exactly one line is written to the
standard output stream; the report in fact writes three lines (two empty
ones, then the path). -/
theorem report_not_single_line :
    linesOf (report (some ["tmp", "x"]) ["home"]).stdoutData
        = ["", "", renderPath ["tmp", "x"]]
    ∧ linesOf (report (some ["tmp", "x"]) ["home"]).stdoutData
        ≠ [renderPath ["tmp", "x"]]
    ∧ (linesOf (report (some ["tmp", "x"]) ["home"]).stdoutData).length ≠ 1 := by
  exact ⟨by decide, by decide, by decide⟩

/-- C8: when the Session Driver's sub-shell exits, an entry that is still a
symlink is unlinked and its backing temp directory recursively deleted,
everything else untouched; an entry that is no longer a symlink (persisted
mid-session) gets no cleanup of any kind, so the data survives. -/
theorem shell_exit_cleanup_spec (fs : FS) (res : Path) :
    (isSymlinkAt fs res = false → shellExitCleanup fs res = .ok fs)
    ∧ ∀ t, fsFind fs res = some (.symlink t) → fsFind fs t = some .dir →
        ∃ fs', shellExitCleanup fs res = .ok fs'
          ∧ fsFind fs' res = none
          ∧ (∀ s, fsFind fs' (t ++ s) = none)
          ∧ ∀ q, q ≠ res → pfx t q = false → fsFind fs' q = fsFind fs q := by
  constructor
  · intro h
    unfold shellExitCleanup
    rw [if_neg (by simp [h])]
  · intro t hs ht
    have hsym : isSymlinkAt fs res = true := by simp [isSymlinkAt, hs]
    have htr : t ≠ res := by
      intro h
      rw [h, hs] at ht
      simp at ht
    have hstep : shellExitCleanup fs res = .ok (removeTree (fsErase fs res) t) := by
      unfold shellExitCleanup
      rw [if_pos hsym]
      have hinner : fsFind (fsErase fs res) t = some .dir := by
        rw [fsFind_erase, if_neg htr, ht]
      simp [hs, hinner]
    refine ⟨removeTree (fsErase fs res) t, hstep, ?_, ?_, ?_⟩
    · rw [fsFind_removeTree]
      by_cases hp : pfx t res = true
      · rw [if_pos hp]
      · rw [if_neg (by simpa using hp), fsFind_erase, if_pos rfl]
    · intro s
      rw [fsFind_removeTree, if_pos (pfx_self_append t s)]
    · intro q hq hpq
      rw [fsFind_removeTree, if_neg (by simp [hpq]), fsFind_erase, if_neg hq]

/-- C10: the collision loop of `new_name` terminates on every finite state:
the result of `probeFrom` is at least its start, bounded by the finite
`keyBound` of the state, names an `unnamed_<k>` that does not exist, and
every index it skipped did exist; `new_name` therefore totally computes an
unused name. -/
theorem new_name_total (fs : FS) (tempdirs : Path) (s : Nat) :
    s ≤ probeFrom fs tempdirs s
    ∧ probeFrom fs tempdirs s ≤ max s (keyBound fs tempdirs)
    ∧ existsP fs (tempdirs ++ [unnamedOf (probeFrom fs tempdirs s)]) = false
    ∧ (∀ j, s ≤ j → j < probeFrom fs tempdirs s →
        existsP fs (tempdirs ++ [unnamedOf j]) = true)
    ∧ ∃ k, new_name fs tempdirs = unnamedOf k
        ∧ existsP fs (tempdirs ++ [unnamedOf k]) = false := by
  obtain ⟨h1, h2, h3⟩ := probeFrom_spec fs tempdirs s
  refine ⟨h1, ?_, h2, h3, ?_⟩
  · by_contra hgt
    push_neg at hgt
    have hs1 : s ≤ probeFrom fs tempdirs s - 1 := by omega
    have hs2 : probeFrom fs tempdirs s - 1 < probeFrom fs tempdirs s := by omega
    have hex := h3 _ hs1 hs2
    have hlt := existsP_unnamed_lt_keyBound hex
    omega
  · obtain ⟨g1, g2, g3⟩ := probeFrom_spec fs tempdirs
      (maxUnnamed (childNames fs tempdirs) + 1)
    exact ⟨probeFrom fs tempdirs (maxUnnamed (childNames fs tempdirs) + 1), rfl, g2⟩

/-- C7: `new_name` scans the children for names `unnamed_<k>`, takes the
largest such `k`, and returns `unnamed_<max+1>`, probing upward past any
index that exists until an unused one; the returned name is never the name
of an existing child. -/
theorem new_name_spec (fs : FS) (tempdirs : Path) (k : Nat)
    (hge : maxUnnamed (childNames fs tempdirs) + 1 ≤ k)
    (hfree : existsP fs (tempdirs ++ [unnamedOf k]) = false)
    (hbusy : ∀ j, maxUnnamed (childNames fs tempdirs) + 1 ≤ j → j < k →
        existsP fs (tempdirs ++ [unnamedOf j]) = true) :
    new_name fs tempdirs = unnamedOf k
    ∧ unnamedOf k ∉ childNames fs tempdirs := by
  obtain ⟨h1, h2, h3⟩ := probeFrom_spec fs tempdirs
    (maxUnnamed (childNames fs tempdirs) + 1)
  have heq : probeFrom fs tempdirs (maxUnnamed (childNames fs tempdirs) + 1) = k := by
    rcases lt_trichotomy (probeFrom fs tempdirs (maxUnnamed (childNames fs tempdirs) + 1)) k
      with hlt | he | hgt
    · have hex := hbusy _ h1 hlt
      rw [hex] at h2
      cases h2
    · exact he
    · have hex := h3 k hge hgt
      rw [hfree] at hex
      cases hex
  constructor
  · unfold new_name
    rw [heq]
  · intro hmem
    have := maxUnnamed_ge hmem
    omega

/-- C7 witness: registry children `unnamed_1` and `unnamed_3`; the next
allocated name is `unnamed_4` (the gap is not reused) and it collides with
no existing child. -/
theorem new_name_spec_witness :
    new_name fsC7 ["r"] = unnamedOf 4 ∧ unnamedOf 4 ∉ childNames fsC7 ["r"] :=
  new_name_spec fsC7 ["r"] 4 (by decide) (by decide)
    (by
      intro j h1 h2
      rw [show maxUnnamed (childNames fsC7 ["r"]) + 1 = 4 from by decide] at h1
      omega)

/-- C6: `persist` on a path that is not a symlink is a no-op leaving the
state unchanged; on a symlink it removes the link and moves the backing
directory's tree to the link's former path: afterwards `registry/n` is a
real directory with the backing directory's contents and the old backing
temp directory no longer exists. -/
theorem persist_spec (fs : FS) (p t : Path)
    (hs : fsFind fs p = some (.symlink t))
    (ht : fsFind fs t = some .dir)
    (hpt : pfx p t = false) (htp : pfx t p = false)
    (hsub : ∀ s, s ≠ ([] : Path) → fsFind fs (p ++ s) = none) :
    (∃ fs', persist fs p = .ok fs'
      ∧ fsFind fs' p = some .dir
      ∧ (∀ s, fsFind fs' (p ++ s) = fsFind fs (t ++ s))
      ∧ (∀ s, fsFind fs' (t ++ s) = none))
    ∧ ∀ g : FS, ∀ q : Path, isSymlinkAt g q = false → persist g q = .ok g := by
  constructor
  · have hsym : isSymlinkAt fs p = true := by simp [isSymlinkAt, hs]
    have htnep : t ≠ p := by
      intro h
      rw [h, pfx_self] at htp
      cases htp
    have hft1 : fsFind (fsErase fs p) t = some .dir := by
      rw [fsFind_erase, if_neg htnep, ht]
    have hstep : persist fs p = .ok (fsRemap (fsErase fs p) t p) := by
      unfold persist
      rw [if_neg (by simp [hsym])]
      simp [hs, moveDir, hft1]
    have hdst : ∀ s, fsFind (fsErase fs p) (p ++ s) = none := by
      intro s
      rw [fsFind_erase]
      by_cases h0 : s = ([] : Path)
      · subst h0
        rw [if_pos (by simp)]
      · rw [if_neg (by
          intro he
          apply h0
          have hl := congrArg List.length he
          simp at hl
          exact hl)]
        exact hsub s h0
    have hmain : ∀ s, fsFind (fsRemap (fsErase fs p) t p) (p ++ s) = fsFind fs (t ++ s) := by
      intro s
      rw [fsFind_remap_dst hdst s, fsFind_erase]
      rw [if_neg (by
        intro he
        rw [← he, pfx_self_append] at htp
        cases htp)]
    refine ⟨fsRemap (fsErase fs p) t p, hstep, ?_, hmain, ?_⟩
    · have h0 := hmain []
      rw [List.append_nil, List.append_nil] at h0
      rw [h0, ht]
    · intro s
      exact fsFind_remap_src htp hpt s
  · intro g q h
    unfold persist
    rw [if_pos (by simp [h])]

/-- C6 witness: persisting the ephemeral entry `alpha`, and the no-op on a
non-symlink. -/
theorem persist_spec_witness :
    ((∃ fs', persist fsS (regS ++ ["alpha"]) = .ok fs'
      ∧ fsFind fs' (regS ++ ["alpha"]) = some .dir
      ∧ (∀ s, fsFind fs' ((regS ++ ["alpha"]) ++ s)
          = fsFind fsS ((["tmp", "T-RS-TEMPDIRaaa"] : Path) ++ s))
      ∧ (∀ s, fsFind fs' ((["tmp", "T-RS-TEMPDIRaaa"] : Path) ++ s) = none))
    ∧ ∀ g : FS, ∀ q : Path, isSymlinkAt g q = false → persist g q = .ok g) :=
  persist_spec fsS (regS ++ ["alpha"]) ["tmp", "T-RS-TEMPDIRaaa"]
    (by decide) (by decide) (by decide) (by decide)
    (by
      intro s h0
      cases s with
      | nil => exact absurd rfl h0
      | cons c s' => simp [fsS, regS, fsFind])

/-- C3: `rename(old, new)` refuses to overwrite — when `new` exists it
returns `false` with the state unchanged; when `new` does not exist it
returns `true`, and afterwards `new` carries `old`'s prior content (for a
persistent directory, the whole subtree) or `old`'s prior symlink target
(for an ephemeral entry, whose backing directory is untouched), and `old`
no longer exists. -/
theorem rename_spec (fs : FS) (reg : Path) (a b : String) (t : Path) (hab : a ≠ b) :
    (existsP fs (reg ++ [b]) = true → rename fs (reg ++ [a]) (reg ++ [b]) = .ok (false, fs))
    ∧ ((∀ s, fsFind fs ((reg ++ [b]) ++ s) = none) →
        fsFind fs (reg ++ [a]) = some .dir →
        ∃ fs', rename fs (reg ++ [a]) (reg ++ [b]) = .ok (true, fs')
          ∧ (∀ s, fsFind fs' ((reg ++ [b]) ++ s) = fsFind fs ((reg ++ [a]) ++ s))
          ∧ (∀ s, fsFind fs' ((reg ++ [a]) ++ s) = none)
          ∧ (∀ q, pfx (reg ++ [a]) q = false → pfx (reg ++ [b]) q = false →
              fsFind fs' q = fsFind fs q))
    ∧ ((∀ s, fsFind fs ((reg ++ [b]) ++ s) = none) →
        fsFind fs (reg ++ [a]) = some (.symlink t) →
        fsFind fs t = some .dir →
        ∃ fs', rename fs (reg ++ [a]) (reg ++ [b]) = .ok (true, fs')
          ∧ fsFind fs' (reg ++ [b]) = some (.symlink t)
          ∧ fsFind fs' (reg ++ [a]) = none
          ∧ fsFind fs' t = some .dir
          ∧ (∀ q, q ≠ reg ++ [a] → q ≠ reg ++ [b] → fsFind fs' q = fsFind fs q)) := by
  have hba : pfx (reg ++ [b]) (reg ++ [a]) = false := pfx_sibling_false (fun h => hab h.symm)
  have hab' : pfx (reg ++ [a]) (reg ++ [b]) = false := pfx_sibling_false hab
  refine ⟨?_, ?_, ?_⟩
  · intro h
    unfold rename
    rw [if_pos h]
  · intro hnew hold
    have hnoex : existsP fs (reg ++ [b]) = false := by
      have h0 := hnew []
      rw [List.append_nil] at h0
      exact existsP_of_none h0
    have hsym : isSymlinkAt fs (reg ++ [a]) = false := by simp [isSymlinkAt, hold]
    have hstep : rename fs (reg ++ [a]) (reg ++ [b])
        = .ok (true, fsRemap fs (reg ++ [a]) (reg ++ [b])) := by
      unfold rename
      rw [if_neg (by simp [hnoex])]
      rw [if_pos (by simp [hsym])]
      simp [fsRename, hold]
    refine ⟨fsRemap fs (reg ++ [a]) (reg ++ [b]), hstep, ?_, ?_, ?_⟩
    · intro s
      exact fsFind_remap_dst hnew s
    · intro s
      exact fsFind_remap_src hab' hba s
    · intro q h1 h2
      exact fsFind_remap_frame h1 h2
  · intro hnew hold ht
    have hnoex : existsP fs (reg ++ [b]) = false := by
      have h0 := hnew []
      rw [List.append_nil] at h0
      exact existsP_of_none h0
    have hsym : isSymlinkAt fs (reg ++ [a]) = true := by simp [isSymlinkAt, hold]
    have htna : t ≠ reg ++ [a] := by
      intro h
      rw [h, hold] at ht
      simp at ht
    have htnb : t ≠ reg ++ [b] := by
      intro h
      have h0 := hnew []
      rw [List.append_nil] at h0
      rw [h, h0] at ht
      cases ht
    have hstep : rename fs (reg ++ [a]) (reg ++ [b])
        = .ok (true, fsInsert (fsErase fs (reg ++ [a])) (reg ++ [b]) (.symlink t)) := by
      unfold rename
      rw [if_neg (by simp [hnoex])]
      rw [if_neg (by simp [hsym])]
      simp [hold]
    have hanb : reg ++ [a] ≠ reg ++ [b] := by
      intro h
      exact hab (by simpa using h)
    refine ⟨_, hstep, ?_, ?_, ?_, ?_⟩
    · rw [fsFind_insert, if_pos rfl]
    · rw [fsFind_insert, if_neg hanb, fsFind_erase, if_pos rfl]
    · rw [fsFind_insert, if_neg htnb, fsFind_erase, if_neg htna, ht]
    · intro q h1 h2
      rw [fsFind_insert, if_neg h2, fsFind_erase, if_neg h1]

/-- C3 witness: renaming the ephemeral entry `alpha` to the fresh name
`gamma` (the symlink is re-pointed, the backing temp directory untouched). -/
theorem rename_spec_witness :
    (existsP fsS (regS ++ ["gamma"]) = true →
      rename fsS (regS ++ ["alpha"]) (regS ++ ["gamma"]) = .ok (false, fsS))
    ∧ ((∀ s, fsFind fsS ((regS ++ ["gamma"]) ++ s) = none) →
        fsFind fsS (regS ++ ["alpha"]) = some .dir →
        ∃ fs', rename fsS (regS ++ ["alpha"]) (regS ++ ["gamma"]) = .ok (true, fs')
          ∧ (∀ s, fsFind fs' ((regS ++ ["gamma"]) ++ s) = fsFind fsS ((regS ++ ["alpha"]) ++ s))
          ∧ (∀ s, fsFind fs' ((regS ++ ["alpha"]) ++ s) = none)
          ∧ (∀ q, pfx (regS ++ ["alpha"]) q = false → pfx (regS ++ ["gamma"]) q = false →
              fsFind fs' q = fsFind fsS q))
    ∧ ((∀ s, fsFind fsS ((regS ++ ["gamma"]) ++ s) = none) →
        fsFind fsS (regS ++ ["alpha"]) = some (.symlink ["tmp", "T-RS-TEMPDIRaaa"]) →
        fsFind fsS (["tmp", "T-RS-TEMPDIRaaa"] : Path) = some .dir →
        ∃ fs', rename fsS (regS ++ ["alpha"]) (regS ++ ["gamma"]) = .ok (true, fs')
          ∧ fsFind fs' (regS ++ ["gamma"]) = some (.symlink ["tmp", "T-RS-TEMPDIRaaa"])
          ∧ fsFind fs' (regS ++ ["alpha"]) = none
          ∧ fsFind fs' (["tmp", "T-RS-TEMPDIRaaa"] : Path) = some .dir
          ∧ (∀ q, q ≠ regS ++ ["alpha"] → q ≠ regS ++ ["gamma"] →
              fsFind fs' q = fsFind fsS q)) :=
  rename_spec fsS regS "alpha" "gamma" ["tmp", "T-RS-TEMPDIRaaa"] (by decide)

theorem isSymlinkAt_some {fs : FS} {q : Path} (h : isSymlinkAt fs q = true) :
    ∃ t, fsFind fs q = some (.symlink t) := by
  unfold isSymlinkAt at h
  cases hf : fsFind fs q with
  | none => simp [hf] at h
  | some node =>
    cases node with
    | dir => simp [hf] at h
    | symlink t => exact ⟨t, rfl⟩

theorem delete_all_go (reg : Path) (names : List String) (fs : FS) (q : Path) :
    fsFind (names.foldl (fun acc n =>
        if isSymlinkAt acc (reg ++ [n]) then fsErase acc (reg ++ [n]) else acc) fs) q
      = if (∃ n ∈ names, q = reg ++ [n]) ∧ isSymlinkAt fs q = true then none
        else fsFind fs q := by
  induction names generalizing fs with
  | nil => simp
  | cons n rest ih =>
    rw [List.foldl_cons]
    by_cases hq : q = reg ++ [n]
    · subst hq
      by_cases hsl : isSymlinkAt fs (reg ++ [n]) = true
      · rw [if_pos hsl, ih]
        have hoff : isSymlinkAt (fsErase fs (reg ++ [n])) (reg ++ [n]) = false := by
          rw [isSymlinkAt_erase, if_pos rfl]
        rw [if_neg (by
          rintro ⟨-, h2⟩
          rw [hoff] at h2
          cases h2)]
        rw [fsFind_erase, if_pos rfl]
        rw [if_pos ⟨⟨n, List.mem_cons_self _ _, rfl⟩, hsl⟩]
      · rw [if_neg hsl, ih]
        rw [if_neg (by rintro ⟨-, h2⟩; exact hsl h2)]
        rw [if_neg (by rintro ⟨-, h2⟩; exact hsl h2)]
    · have hcond : ((∃ m ∈ rest, q = reg ++ [m]) ∧ isSymlinkAt fs q = true)
          ↔ ((∃ m ∈ n :: rest, q = reg ++ [m]) ∧ isSymlinkAt fs q = true) := by
        constructor
        · rintro ⟨⟨m, hm, rfl⟩, h2⟩
          exact ⟨⟨m, List.mem_cons_of_mem _ hm, rfl⟩, h2⟩
        · rintro ⟨⟨m, hm, rfl⟩, h2⟩
          rcases List.mem_cons.mp hm with heq | hm'
          · exact absurd (by rw [heq]) hq
          · exact ⟨⟨m, hm', rfl⟩, h2⟩
      by_cases hsl : isSymlinkAt fs (reg ++ [n]) = true
      · rw [if_pos hsl, ih]
        have hf : fsFind (fsErase fs (reg ++ [n])) q = fsFind fs q := by
          rw [fsFind_erase, if_neg hq]
        have hsy : isSymlinkAt (fsErase fs (reg ++ [n])) q = isSymlinkAt fs q := by
          rw [isSymlinkAt_erase, if_neg hq]
        rw [hf, hsy, if_congr hcond rfl rfl]
      · rw [if_neg hsl, ih, if_congr hcond rfl rfl]

/-- C5: `delete_all` removes every direct child of the registry that is a
symlink, leaves every other entry — in particular every persistent
directory child and all its contents — untouched, and reports the registry
path; e.g. a registry with ephemeral `alpha` and persistent `beta` keeps
only `beta`, with `alpha`'s backing directory orphaned but intact. -/
theorem delete_all_spec (fs : FS) (tempdirs : Path) :
    ((delete_all fs tempdirs).2 = tempdirs
    ∧ ∀ q, fsFind (delete_all fs tempdirs).1 q
        = if (childName? tempdirs q).isSome ∧ isSymlinkAt fs q = true then none
          else fsFind fs q)
    ∧ (fsFind (delete_all fsS regS).1 (regS ++ ["alpha"]) = none
      ∧ fsFind (delete_all fsS regS).1 (regS ++ ["beta"]) = some .dir
      ∧ fsFind (delete_all fsS regS).1 (["tmp", "T-RS-TEMPDIRaaa"] : Path) = some .dir) := by
  refine ⟨⟨rfl, fun q => ?_⟩, by decide, by decide, by decide⟩
  show fsFind ((childNames fs tempdirs).foldl _ fs) q = _
  rw [delete_all_go]
  have hcond : ((∃ n ∈ childNames fs tempdirs, q = tempdirs ++ [n])
        ∧ isSymlinkAt fs q = true)
      ↔ ((childName? tempdirs q).isSome ∧ isSymlinkAt fs q = true) := by
    constructor
    · rintro ⟨⟨n, hn, rfl⟩, h2⟩
      rw [show childName? tempdirs (tempdirs ++ [n]) = some n from childName?_eq_some.mpr rfl]
      exact ⟨rfl, h2⟩
    · rintro ⟨h1, h2⟩
      obtain ⟨n, hn⟩ := Option.isSome_iff_exists.mp h1
      have hqn := childName?_eq_some.mp hn
      subst hqn
      obtain ⟨t, hft⟩ := isSymlinkAt_some h2
      exact ⟨⟨n, childNames_mem (fsFind_isSome_mem hft) hn, rfl⟩, h2⟩
  rw [if_congr hcond rfl rfl]

theorem staleChild_some {fs : FS} {q : Path} (h : staleChild fs q = true) :
    ∃ t, fsFind fs q = some (.symlink t) := by
  unfold staleChild at h
  cases hf : fsFind fs q with
  | none => simp [hf] at h
  | some node =>
    cases node with
    | dir => simp [hf] at h
    | symlink t => exact ⟨t, rfl⟩

theorem hwf_erase {fs : FS} {e : Path}
    (hwf : ∀ p t, fsFind fs p = some (.symlink t) →
        fsFind fs t = some .dir ∨ fsFind fs t = none)
    {t0 : Path} (he : fsFind fs e = some (.symlink t0)) :
    ∀ p t, fsFind (fsErase fs e) p = some (.symlink t) →
      fsFind (fsErase fs e) t = some .dir ∨ fsFind (fsErase fs e) t = none := by
  intro p t hp
  rw [fsFind_erase] at hp
  by_cases hpe : p = e
  · rw [if_pos hpe] at hp; cases hp
  · rw [if_neg hpe] at hp
    have hres := hwf p t hp
    have htne : t ≠ e := by
      intro hte
      rw [hte, he] at hres
      rcases hres with h1 | h1 <;> simp at h1
    rw [fsFind_erase, if_neg htne]
    exact hres

theorem staleChild_erase {fs : FS} {e q : Path}
    (hwf : ∀ p t, fsFind fs p = some (.symlink t) →
        fsFind fs t = some .dir ∨ fsFind fs t = none)
    {t0 : Path} (he : fsFind fs e = some (.symlink t0))
    (hq : q ≠ e) :
    staleChild (fsErase fs e) q = staleChild fs q := by
  unfold staleChild
  rw [fsFind_erase, if_neg hq]
  cases hfq : fsFind fs q with
  | none => rfl
  | some node =>
    cases node with
    | dir => rfl
    | symlink u =>
      have hu := hwf q u hfq
      have hune : u ≠ e := by
        intro h
        rw [h, he] at hu
        rcases hu with h1 | h1 <;> simp at h1
      have hfu : fsFind (fsErase fs e) u = fsFind fs u := by
        rw [fsFind_erase, if_neg hune]
      show (!existsP (fsErase fs e) u) = (!existsP fs u)
      rcases hu with hd | hn
      · rw [existsP_of_dir hd, existsP_of_dir (by rw [hfu, hd])]
      · rw [existsP_of_none hn, existsP_of_none (by rw [hfu, hn])]

theorem cleanupGo_error (reg : Path) :
    ∀ (pre : List String) (post : List DirEntryRes) (fs : FS),
      cleanupGo reg (pre.map .ok ++ .error () :: post) fs = .error () := by
  intro pre
  induction pre with
  | nil => intro post fs; rfl
  | cons n rest ih =>
    intro post fs
    show cleanupGo reg (.ok n :: (rest.map .ok ++ .error () :: post)) fs = .error ()
    cases hfind : fsFind fs (reg ++ [n]) with
    | none =>
      simp only [cleanupGo, hfind]
      exact ih post fs
    | some node =>
      cases node with
      | dir =>
        simp only [cleanupGo, hfind]
        exact ih post fs
      | symlink t =>
        simp only [cleanupGo, hfind]
        by_cases hex : existsP fs t = true
        · rw [if_pos hex]
          exact ih post fs
        · rw [if_neg hex]
          exact ih post _

theorem cleanupGo_spec (reg : Path) (names : List String) (fs : FS)
    (hwf : ∀ p t, fsFind fs p = some (.symlink t) →
        fsFind fs t = some .dir ∨ fsFind fs t = none) :
    ∃ fs', cleanupGo reg (names.map .ok) fs = .ok fs'
      ∧ ∀ q, fsFind fs' q
          = if (∃ n ∈ names, q = reg ++ [n]) ∧ staleChild fs q = true then none
            else fsFind fs q := by
  induction names generalizing fs with
  | nil =>
    exact ⟨fs, rfl, fun q => by
      rw [if_neg (by rintro ⟨⟨n, hn, -⟩, -⟩; cases hn)]⟩
  | cons n rest ih =>
    have htrans : staleChild fs (reg ++ [n]) = false → ∀ q : Path,
        (((∃ m ∈ rest, q = reg ++ [m]) ∧ staleChild fs q = true)
          ↔ ((∃ m ∈ n :: rest, q = reg ++ [m]) ∧ staleChild fs q = true)) := by
      intro hns q
      constructor
      · rintro ⟨⟨m, hm, rfl⟩, h2⟩
        exact ⟨⟨m, List.mem_cons_of_mem _ hm, rfl⟩, h2⟩
      · rintro ⟨⟨m, hm, rfl⟩, h2⟩
        rcases List.mem_cons.mp hm with heq | hm'
        · subst heq
          rw [hns] at h2
          simp at h2
        · exact ⟨⟨m, hm', rfl⟩, h2⟩
    rw [List.map_cons]
    cases hfind : fsFind fs (reg ++ [n]) with
    | none =>
      have hns : staleChild fs (reg ++ [n]) = false := by
        unfold staleChild; rw [hfind]
      obtain ⟨fs', hrun, hchar⟩ := ih fs hwf
      refine ⟨fs', ?_, fun q => ?_⟩
      · simp only [cleanupGo, hfind]
        exact hrun
      · rw [hchar q, if_congr (htrans hns q) rfl rfl]
    | some node =>
      cases node with
      | dir =>
        have hns : staleChild fs (reg ++ [n]) = false := by
          unfold staleChild; rw [hfind]
        obtain ⟨fs', hrun, hchar⟩ := ih fs hwf
        refine ⟨fs', ?_, fun q => ?_⟩
        · simp only [cleanupGo, hfind]
          exact hrun
        · rw [hchar q, if_congr (htrans hns q) rfl rfl]
      | symlink t =>
        by_cases hex : existsP fs t = true
        · have hns : staleChild fs (reg ++ [n]) = false := by
            unfold staleChild; rw [hfind]; simp [hex]
          obtain ⟨fs', hrun, hchar⟩ := ih fs hwf
          refine ⟨fs', ?_, fun q => ?_⟩
          · simp only [cleanupGo, hfind]
            rw [if_pos hex]
            exact hrun
          · rw [hchar q, if_congr (htrans hns q) rfl rfl]
        · have hexf : existsP fs t = false := by simpa using hex
          have hstale : staleChild fs (reg ++ [n]) = true := by
            unfold staleChild; rw [hfind]; simp [hexf]
          obtain ⟨fs', hrun, hchar⟩ := ih (fsErase fs (reg ++ [n])) (hwf_erase hwf hfind)
          refine ⟨fs', ?_, fun q => ?_⟩
          · simp only [cleanupGo, hfind]
            rw [if_neg hex]
            exact hrun
          · rw [hchar q]
            by_cases hq : q = reg ++ [n]
            · subst hq
              have hoff : staleChild (fsErase fs (reg ++ [n])) (reg ++ [n]) = false := by
                unfold staleChild; rw [fsFind_erase, if_pos rfl]
              rw [if_neg (by
                rintro ⟨-, h2⟩
                rw [hoff] at h2
                cases h2)]
              rw [fsFind_erase, if_pos rfl]
              rw [if_pos ⟨⟨n, List.mem_cons_self _ _, rfl⟩, hstale⟩]
            · have hfq : fsFind (fsErase fs (reg ++ [n])) q = fsFind fs q := by
                rw [fsFind_erase, if_neg hq]
              have hsc : staleChild (fsErase fs (reg ++ [n])) q = staleChild fs q :=
                staleChild_erase hwf hfind hq
              rw [hfq, hsc]
              have hcond2 : ((∃ m ∈ rest, q = reg ++ [m]) ∧ staleChild fs q = true)
                  ↔ ((∃ m ∈ n :: rest, q = reg ++ [m]) ∧ staleChild fs q = true) := by
                constructor
                · rintro ⟨⟨m, hm, rfl⟩, h2⟩
                  exact ⟨⟨m, List.mem_cons_of_mem _ hm, rfl⟩, h2⟩
                · rintro ⟨⟨m, hm, rfl⟩, h2⟩
                  rcases List.mem_cons.mp hm with heq | hm'
                  · exact absurd (by rw [heq]) hq
                  · exact ⟨⟨m, hm', rfl⟩, h2⟩
              rw [if_congr hcond2 rfl rfl]

/-- C2 (amended): the Reaper removes exactly the direct children of the
registry that are symlinks whose target does not exist and leaves every
other entry untouched; failure to list the registry itself is fatal, and —
unlike the claim's wording — a failed individual direntry read is also
propagated with `?` and aborts the whole invocation. -/
theorem cleanup_spec (tempdirs : Path) (fs : FS) (hwf : wfTargets fs = true) :
    (cleanup tempdirs (.error ()) fs = .error ())
    ∧ (∀ (pre : List String) (post : List DirEntryRes),
        cleanup tempdirs (.ok (pre.map .ok ++ .error () :: post)) fs = .error ())
    ∧ ∃ fs', cleanup tempdirs (.ok ((childNames fs tempdirs).map .ok)) fs = .ok fs'
        ∧ ∀ q, fsFind fs' q
            = if (childName? tempdirs q).isSome ∧ staleChild fs q = true then none
              else fsFind fs q := by
  have hwf' : ∀ p t, fsFind fs p = some (.symlink t) →
      fsFind fs t = some .dir ∨ fsFind fs t = none := fun p t hp => wfTargets_spec hwf hp
  refine ⟨rfl, fun pre post => cleanupGo_error tempdirs pre post fs, ?_⟩
  obtain ⟨fs', hrun, hchar⟩ := cleanupGo_spec tempdirs (childNames fs tempdirs) fs hwf'
  refine ⟨fs', hrun, fun q => ?_⟩
  rw [hchar q]
  have hcond : ((∃ n ∈ childNames fs tempdirs, q = tempdirs ++ [n]) ∧ staleChild fs q = true)
      ↔ ((childName? tempdirs q).isSome ∧ staleChild fs q = true) := by
    constructor
    · rintro ⟨⟨n, hn, rfl⟩, h2⟩
      rw [show childName? tempdirs (tempdirs ++ [n]) = some n from childName?_eq_some.mpr rfl]
      exact ⟨rfl, h2⟩
    · rintro ⟨h1, h2⟩
      obtain ⟨n, hn⟩ := Option.isSome_iff_exists.mp h1
      have hqn := childName?_eq_some.mp hn
      subst hqn
      obtain ⟨t, hft⟩ := staleChild_some h2
      exact ⟨⟨n, childNames_mem (fsFind_isSome_mem hft) hn, rfl⟩, h2⟩
  rw [if_congr hcond rfl rfl]

/-- C2 witness: on the registry `/r` with live `a`, stale `b` and
persistent `c`, the sweep removes exactly `b`; both failure modes abort. -/
theorem cleanup_spec_witness :
    (cleanup ["r"] (.error ()) fsC2 = .error ())
    ∧ (∀ (pre : List String) (post : List DirEntryRes),
        cleanup ["r"] (.ok (pre.map .ok ++ .error () :: post)) fsC2 = .error ())
    ∧ ∃ fs', cleanup ["r"] (.ok ((childNames fsC2 ["r"]).map .ok)) fsC2 = .ok fs'
        ∧ ∀ q, fsFind fs' q
            = if (childName? ["r"] q).isSome ∧ staleChild fsC2 q = true then none
              else fsFind fsC2 q :=
  cleanup_spec ["r"] fsC2 (by decide)

/-- C2 counterexample: the claim says a failed individual direntry read
must not fail the whole invocation; in the code `cleanup` propagates it
with `?`, so the invocation fails although the registry was listable and
its first entry was read fine. -/
theorem cleanup_direntry_error_cex :
    cleanup ["r"] (.ok [.ok "a", .error ()]) fsC2 = .error () := rfl

/-- C1 (amended): when the canonicalized shell-reported directory has a
component starting with the scratch-dir prefix, `in_tempdir` walks upward
from the shell-reported path as given (not from its canonicalized form),
stops at the first parent equal to the OS temp root or the registry root,
and returns that parent's child: the registry-visible `registry/name` when
the boundary is the registry, but the raw temp path when it is the temp
root. -/
theorem in_tempdir_tag_case (fs : FS) (tmp tempdirs cwd p cp : Path)
    (hc : canonicalize fs p = some cp)
    (htag : hasTagComponent cp = true) :
    in_tempdir fs tmp tempdirs cwd (some p) = .ok (find_parent tmp tempdirs p)
    ∧ ∀ r, find_parent tmp tempdirs p = some r →
        (r.dropLast = tmp ∨ r.dropLast = tempdirs) ∧ pfx r p = true := by
  constructor
  · unfold in_tempdir
    simp [hc, htag]
  · intro r h
    exact find_parent_spec tmp tempdirs p h

/-- C1 witness: with the shell inside `registry/alpha` (whose canonical
form is the marked temp directory), the walk from the raw shell path stops
at the registry and yields the registry-visible entry. -/
theorem in_tempdir_tag_case_witness :
    in_tempdir fsS ["tmp"] regS (regS ++ ["alpha"]) (some (regS ++ ["alpha"]))
      = .ok (find_parent ["tmp"] regS (regS ++ ["alpha"]))
    ∧ ∀ r, find_parent ["tmp"] regS (regS ++ ["alpha"]) = some r →
        (r.dropLast = ["tmp"] ∨ r.dropLast = regS) ∧ pfx r (regS ++ ["alpha"]) = true :=
  in_tempdir_tag_case fsS ["tmp"] regS (regS ++ ["alpha"]) (regS ++ ["alpha"])
    ["tmp", "T-RS-TEMPDIRaaa"] (by decide) (by decide)

/-- C1 counterexample: with the shell-reported working directory equal to
the raw backing temp directory of the tracked entry `alpha`, `in_tempdir`
returns that raw OS-temp path — not the registry-visible `registry/alpha`
the claim promises. -/
theorem in_tempdir_raw_cex :
    in_tempdir fsS ["tmp"] regS ["tmp", "T-RS-TEMPDIRaaa"]
        (some ["tmp", "T-RS-TEMPDIRaaa"])
      = .ok (some ["tmp", "T-RS-TEMPDIRaaa"])
    ∧ fsFind fsS (regS ++ ["alpha"]) = some (.symlink ["tmp", "T-RS-TEMPDIRaaa"])
    ∧ (["tmp", "T-RS-TEMPDIRaaa"] : Path) ≠ regS ++ ["alpha"] :=
  ⟨rfl, by decide, by decide⟩

end Trs
